import Mathlib

/-!
Shallow embedding of the document-segmentation and validity-gate core of the
EDGAR DEF 14A pipeline (`parse_exec_compensation.py`, `edgar_scraper.py`).

The HTML parser (BeautifulSoup) is outside the embedding: a `Document` records
the results of the structural queries the code performs on the parsed tree
(texts of h1/h2/h3 elements, texts of class-matched elements, texts of
style-matched elements, and the ordered list of raw text nodes).  All string
functions reimplement the Python operations the code uses (`str.strip`,
`str.isupper`, `str.lower`, `in` substring test, `re.sub(r'\s+', ' ', ...)`,
`'\n'.join`), scoped to ASCII, which is the alphabet of every concrete input
considered here.  The five constant confidences 0.9 / 0.8 / 0.7 / 0.6 / 0.5 are
represented in tenths as the naturals 9 / 8 / 7 / 6 / 5: the code never does
arithmetic on them, it only compares them (the descending sort and the
first-seen dedup), and this representation preserves their order and equality
exactly.
-/

namespace Edgar

/-- ASCII whitespace, matching Python's `str.strip` / regex `\s` on the
ASCII range: space, tab, newline, carriage return, vertical tab, form feed. -/
def isWS (c : Char) : Bool :=
  c = ' ' || c = '\t' || c = '\n' || c = '\r' || c = '\x0b' || c = '\x0c'

/-- Strip leading and trailing whitespace from a character list. -/
def stripChars (l : List Char) : List Char :=
  ((l.dropWhile isWS).reverse.dropWhile isWS).reverse

/-- Python `str.strip()`. -/
def pyStrip (s : String) : String := ⟨stripChars s.data⟩

/-- Replace every maximal run of whitespace by a single space
(the effect of `re.sub(r'\s+', ' ', text)`); the flag records whether the
previous character was whitespace. -/
def collapseWS (inRun : Bool) : List Char → List Char
  | [] => []
  | c :: cs =>
    if isWS c then
      if inRun then collapseWS true cs else ' ' :: collapseWS true cs
    else c :: collapseWS false cs

/-- `re.sub(r'\s+', ' ', text).strip()` — the normalization applied by the
deduplication step of `identify_headings`. -/
def normWS (s : String) : String := ⟨stripChars (collapseWS false s.data)⟩

/-- Does `n` occur at the start of `l`? -/
def startsWithL : List Char → List Char → Bool
  | [], _ => true
  | _ :: _, [] => false
  | a :: xs, b :: ys => a = b && startsWithL xs ys

/-- Does `n` occur as a contiguous run somewhere in `l`? -/
def subAt (n : List Char) : List Char → Bool
  | [] => n.isEmpty
  | c :: cs => startsWithL n (c :: cs) || subAt n cs

/-- Python's `needle in hay` substring test. -/
def hasSubstr (needle hay : String) : Bool := subAt needle.data hay.data

/-- Python `str.isupper()` on the ASCII range: at least one letter, and every
letter is uppercase. -/
def pyIsUpper (s : String) : Bool :=
  s.data.any (fun c => c.isAlpha) && s.data.all (fun c => !c.isAlpha || c.isUpper)

/-- Python `str.lower()` on the ASCII range. -/
def pyLower (s : String) : String := ⟨s.data.map Char.toLower⟩

/-- Python slicing `s[:n]`: the first `n` characters (code points). -/
def pyTake (s : String) (n : Nat) : String := ⟨s.data.take n⟩

/-- Python `text.endswith(':')`. -/
def endsWithColon (s : String) : Bool := s.data.getLast? = some ':'

/-- Python `'\n'.join(strings)`. -/
def joinNL : List String → String
  | [] => ""
  | [s] => s
  | s :: rest => s ++ "\n" ++ joinNL rest

/-!
The Document model: results of the BeautifulSoup queries the code performs.
-/

/-- One parsed HTML filing, as seen through the structural queries of
`identify_headings` / `extract_sections`:
* `tagTexts`    — `get_text()` of each h1/h2/h3 element, in query order;
* `classTexts`  — `get_text()` of each element whose class matches
  `heading|title|header|section` (case-insensitive);
* `styleTexts`  — `get_text()` of each element whose inline style matches
  bold font-weight or font-size 12–19px;
* `textNodes`   — every text node of the document, in document order. -/
structure Document where
  tagTexts : List String
  classTexts : List String
  styleTexts : List String
  textNodes : List String

/-- `[elem.strip() for elem in soup.find_all(string=True) if elem.strip()]`:
the flattened search space used by `extract_sections`. -/
def textElements (doc : Document) : List String :=
  (doc.textNodes.map pyStrip).filter (fun s => s ≠ "")

/-!
`identify_headings` (parse_exec_compensation.py, lines 259–298).
-/

/-- Tag signal: every h1/h2/h3 element contributes its stripped text at
confidence 0.9. -/
def sigTag (doc : Document) : List (String × Nat) :=
  doc.tagTexts.map (fun t => (pyStrip t, 9))

/-- CSS-class signal: class-matched elements contribute stripped text at 0.8. -/
def sigClass (doc : Document) : List (String × Nat) :=
  doc.classTexts.map (fun t => (pyStrip t, 8))

/-- Style signal: style-matched elements whose stripped text is shorter than
100 characters contribute it at 0.7. -/
def sigStyle (doc : Document) : List (String × Nat) :=
  doc.styleTexts.filterMap (fun t =>
    let s := pyStrip t
    if s.length < 100 then some (s, 7) else none)

/-- Text-pattern signal over the stripped text nodes: nonempty text shorter
than 100 characters scores 0.6 when all-caps and longer than 10, else 0.5 when
it ends with a colon. -/
def sigText (doc : Document) : List (String × Nat) :=
  doc.textNodes.filterMap (fun t =>
    let s := pyStrip t
    if s ≠ "" ∧ s.length < 100 then
      if pyIsUpper s ∧ 10 < s.length then some (s, 6)
      else if endsWithColon s then some (s, 5)
      else none
    else none)

/-- The raw candidate list of `identify_headings`, in evaluation order:
tag, then class, then style, then text pattern. -/
def rawCandidates (doc : Document) : List (String × Nat) :=
  sigTag doc ++ sigClass doc ++ sigStyle doc ++ sigText doc

/-- The deduplication loop of `identify_headings`: normalize the text,
keep it when it is nonempty, not yet seen, and shorter than 200 characters. -/
def dedupLoop : List (String × Nat) → List String → List (String × Nat)
  | [], _ => []
  | (t, c) :: rest, seen =>
    let n := normWS t
    if n ≠ "" ∧ n ∉ seen ∧ n.length < 200 then
      (n, c) :: dedupLoop rest (n :: seen)
    else dedupLoop rest seen

/-- `identify_headings`: the four signals followed by deduplication. -/
def identify_headings (doc : Document) : List (String × Nat) :=
  dedupLoop (rawCandidates doc) []

/-!
`extract_sections` (parse_exec_compensation.py, lines 300–334).
-/

/-- Scan priority: `sorted(headings, key=lambda x: x[1], reverse=True)` —
stable, descending by confidence (in tenths). -/
def confGE (a b : String × Nat) : Prop := b.2 ≤ a.2

instance : DecidableRel confGE := fun a b => inferInstanceAs (Decidable (b.2 ≤ a.2))

instance : IsTotal (String × Nat) confGE := ⟨fun a b => le_total b.2 a.2⟩

instance : IsTrans (String × Nat) confGE := ⟨fun _ _ _ h h' => le_trans h' h⟩

/-- Python's stable descending sort by confidence. -/
def sortHeads (hs : List (String × Nat)) : List (String × Nat) :=
  List.insertionSort confGE hs

/-- `next(idx for idx, text in enumerate(l[start:], start) if p(text))`:
first index at or after `start` whose element satisfies `p`. -/
def findIdxFrom (p : String → Bool) (l : List String) (start : Nat) : Option Nat :=
  match (l.drop start).findIdx? p with
  | some i => some (start + i)
  | none => none

/-- Start index of a heading: first text element containing it as substring. -/
def startOf (tes : List String) (h : String) : Option Nat :=
  findIdxFrom (fun t => hasSubstr h t) tes 0

/-- One step of the end-boundary search: if the next heading first matches at
some index after `s` that is smaller than the current end, shrink the end. -/
def endStep (tes : List String) (s : Nat) (e : Nat) (q : String × Nat) : Nat :=
  match findIdxFrom (fun t => hasSubstr q.1 t) tes (s + 1) with
  | some n => if n < e then n else e
  | none => e

/-- End boundary of a section: fold of `endStep` over the headings that come
after the current one in the confidence-sorted order, starting from the
length of the text-element list. -/
def endOf (tes : List String) (rest : List (String × Nat)) (s : Nat) : Nat :=
  rest.foldl (endStep tes s) tes.length

/-- `'\n'.join(text_elements[start_idx+1:end_idx])`. -/
def bodyOf (tes : List String) (rest : List (String × Nat)) (s : Nat) : String :=
  joinNL ((tes.drop (s + 1)).take (endOf tes rest s - (s + 1)))

/-- `sections[heading] = content`: Python dict assignment — replace the value
in place when the key is present, else append. -/
def dictInsert (k v : String) (d : List (String × String)) : List (String × String) :=
  if d.any (fun p => p.1 = k) then
    d.map (fun p => if p.1 = k then (k, v) else p)
  else d ++ [(k, v)]

/-- The main loop of `extract_sections` over the sorted heading list. -/
def extractLoop (tes : List String) : List (String × Nat) → List (String × String) → List (String × String)
  | [], acc => acc
  | q :: rest, acc =>
    match startOf tes q.1 with
    | none => extractLoop tes rest acc
    | some s =>
      let body := bodyOf tes rest s
      if 100 < body.length then extractLoop tes rest (dictInsert q.1 body acc)
      else extractLoop tes rest acc

/-- `extract_sections`: flatten the document, sort the headings by descending
confidence, and carve out the section bodies. -/
def extract_sections (doc : Document) (headings : List (String × Nat)) : List (String × String) :=
  extractLoop (textElements doc) (sortHeads headings) []

/-!
`get_compensation_section` (parse_exec_compensation.py, lines 336–370).
The body's re-parse for table elements (`BeautifulSoup(content).find_all('table')`)
is abstracted as a boolean function `hasTables` on the body string.
-/

def compKeywords : List String :=
  ["summary compensation table", "executive compensation",
   "compensation discussion", "director compensation"]

def bioKeywords : List String :=
  ["executive officers", "board of directors",
   "biographical information", "director nominees"]

/-- `any(k in heading_lower for k in kws) or any(k in content.lower()[:1000] for k in kws)`. -/
def hitKeywords (kws : List String) (heading content : String) : Bool :=
  kws.any (fun k => hasSubstr k (pyLower heading)) ||
  kws.any (fun k => hasSubstr k (pyTake (pyLower content) 1000))

/-- One section's turn in the loop of `get_compensation_section`: the
compensation category inserts only when the body has tables; the biography
category always inserts on a keyword hit. -/
def relevStep (hasTables : String → Bool) (acc : List (String × String)) (hc : String × String) :
    List (String × String) :=
  let acc1 :=
    if hitKeywords compKeywords hc.1 hc.2 then
      if hasTables hc.2 then dictInsert hc.1 hc.2 acc else acc
    else acc
  if hitKeywords bioKeywords hc.1 hc.2 then dictInsert hc.1 hc.2 acc1 else acc1

/-- The accumulation loop of `get_compensation_section`. -/
def relevantSections (hasTables : String → Bool) (sections : List (String × String)) : List (String × String) :=
  sections.foldl (relevStep hasTables) []

/-- The condition under which a section is inserted into the relevant set:
a compensation-keyword hit with a table in the body, or a biography-keyword
hit. -/
def qualifies (hasTables : String → Bool) (p : String × String) : Bool :=
  (hitKeywords compKeywords p.1 p.2 && hasTables p.2) || hitKeywords bioKeywords p.1 p.2

/-- `get_compensation_section`: the relevant subset, or `None` when empty. -/
def get_compensation_section (hasTables : String → Bool) (sections : List (String × String)) :
    Option (List (String × String)) :=
  let rel := relevantSections hasTables sections
  if rel.isEmpty then none else some rel

/-- First-match association lookup (Python `sections[heading]` read side /
`heading in sections`). -/
def lookupKey (k : String) : List (String × String) → Option String
  | [] => none
  | (k', v) :: rest => if k' = k then some v else lookupKey k rest

/-!
`validate_filing_content` (edgar_scraper.py, lines 187–210; identical logic in
test_edgar.py, lines 123–153).  A term pattern is a list of alternatives, each
alternative a sequence of words separated by `\s+`.  Since every word starts
with a letter (not whitespace), greedy whitespace munching is equivalent to
the regex's backtracking search.
-/

/-- Match a `\s+`-separated word sequence at the start of `l`. -/
def matchSeqAt : List String → List Char → Bool
  | [], _ => true
  | [w], l => startsWithL w.data l
  | w :: w2 :: ws, l =>
    startsWithL w.data l &&
      match l.drop w.data.length with
      | [] => false
      | c :: cs => isWS c && matchSeqAt (w2 :: ws) ((c :: cs).dropWhile isWS)

/-- Search a `\s+`-separated word sequence anywhere in `l` (regex `re.search`). -/
def searchSeq (ws : List String) : List Char → Bool
  | [] => matchSeqAt ws []
  | c :: cs => matchSeqAt ws (c :: cs) || searchSeq ws cs

/-- One required-term pattern: does any alternative word sequence occur? -/
def altsMatch (alts : List (List String)) (text : List Char) : Bool :=
  alts.any (fun ws => searchSeq ws text)

/-- The four required-term patterns of `validate_filing_content`. -/
def requiredTerms : List (List (List String)) :=
  [[["proxy", "statement"]],
   [["executive", "compensation"], ["compensation", "discussion"]],
   [["board", "of", "directors"], ["corporate", "governance"]],
   [["stock", "ownership"], ["stock", "holdings"],
    ["share", "ownership"], ["share", "holdings"]]]

/-- `validate_filing_content`: false on falsy content; otherwise lower-case the
extracted text (`gt` abstracts `BeautifulSoup(...).get_text()`), count matching
required-term patterns, and demand at least two matches plus the proxy-statement
pattern. -/
def validate_filing_content (gt : String → String) (content : String) : Bool :=
  if content = "" then false
  else
    let text := (pyLower (gt content)).data
    let nMatches := requiredTerms.foldl (fun n p => if altsMatch p text then n + 1 else n) 0
    let basicValid : Bool := decide (2 ≤ nMatches)
    let hasProxy := altsMatch [["proxy", "statement"]] text
    basicValid && hasProxy

/-!
Concrete documents and inputs used by the claim theorems below.
-/

/-- BeautifulSoup's table check, instantiated as a substring test on the body. -/
def containsTableTag (body : String) : Bool := hasSubstr "<table" body

def c1fillerA : String := "aaaaaaaaaaaaaaaaaaaaaaaaaaaaaaaaaaaaaaaaaaaaaaaaaaaaaaaaaaaaaaaaaaaaaaaaaaaaaaaaaaaaaaaaaaaaaaaaaaaaaaaaaaaaaa"

def c1fillerB : String := "bbbbbbbbbbbbbbbbbbbbbbbbbbbbbbbbbbbbbbbbbbbbbbbbbbbbbbbbbbbbbbbbbbbbbbbbbbbbbbbbbbbbbbbbbbbbbbbbbbbbbbbbbbbbbb"

def c1doc : Document := ⟨[], [], [], ["H1SECTION", c1fillerA, "H2SECTION", c1fillerB]⟩

def c1hs : List (String × Nat) := [("H1SECTION", 5), ("H2SECTION", 9)]

def c1wfillerA : String := "cccccccccccccccccccccccccccccccccccccccccccccccccccccccccccccccccccccccccccccccccccccccccccccccccccccccccccccc"

def c1wfillerB : String := "dddddddddddddddddddddddddddddddddddddddddddddddddddddddddddddddddddddddddddddddddddddddddddddddddddddddddddddd"

def c1wdoc : Document := ⟨[], [], [], ["H1SECTION", c1wfillerA, "H2SECTION", c1wfillerB]⟩

def c1whs : List (String × Nat) := [("H1SECTION", 9), ("H2SECTION", 5)]

def c2doc : Document := ⟨[], [], [], ["AB CD:", "AB       CD:"]⟩

def c2wdoc : Document := ⟨["Compensation Discussion"], [], [], []⟩

def c3sections1 : List (String × String) :=
  [("Executive Compensation", "plain prose with no numbers"),
   ("Board of Directors", "names of the nominees")]

def c3sections2 : List (String × String) :=
  [("Executive Compensation", "<table>Name Salary</table>")]

def c5fillerA : String := "eeeeeeeeeeeeeeeeeeeeeeeeeeeeeeeeeeeeeeeeeeeeeeeeeeeeeeeeeeeeeeeeeeeeeeeeeeeeeeeeeeeeeeeeeeeeeeeeeeeeeeeeeeeeee"

def c5fillerB : String := "ffffffffffffffffffffffffffffffffffffffffffffffffffffffffffffffffffffffffffffffffffffffffffffffffffffffffffffff"

def c5doc : Document := ⟨[], [], [], ["ALPHAHEAD:", c5fillerA, "BETAHEADINGX", c5fillerB]⟩

def c6filler : String := "xxxxxxxxxxxxxxxxxxxxxxxxxxxxxxxxxxxxxxxxxxxxxxxxxxxxxxxxxxxxxxxxxxxxxxxxxxxxxxxxxxxxxxxxxxxxxxxxxxxxxxxxxxxxxx"

def c6doc : Document := ⟨[], [], [], ["EXECUTIVE COMPENSATION", c6filler]⟩

def c6hs : List (String × Nat) := [("EXECUTIVE COMPENSATION", 9), ("COMPENSATION", 8)]

def c7filler : String := "gggggggggggggggggggggggggggggggggggggggggggggggggggggggggggggggggggggggggggggggggggggggggggggggggggggggggggggg"

def c7doc : Document := ⟨["AHEADING"], [], [], ["AHEADING", c7filler]⟩

def c8doc : Document := ⟨[], [], [], ["   "]⟩

def c9sections : List (String × String) :=
  [("Executive Compensation and Board of Directors", "prose only")]

/-!
Lemmas about `dictInsert` and `lookupKey`.
-/

theorem map_fst_mapReplace (k : String) (v : String) (d : List (String × String)) :
    (d.map (fun p => if p.1 = k then (k, v) else p)).map Prod.fst = d.map Prod.fst := by
  rw [List.map_map]
  apply List.map_congr_left
  intro p _
  by_cases hpk : p.1 = k
  · simp [hpk]
  · simp [hpk]

theorem mem_keys_dictInsert {h k v : String} {d : List (String × String)} :
    h ∈ (dictInsert k v d).map Prod.fst ↔ h = k ∨ h ∈ d.map Prod.fst := by
  unfold dictInsert
  split
  · next hany =>
    rw [map_fst_mapReplace]
    constructor
    · exact Or.inr
    · intro hor
      rcases hor with he | hmem
      · subst he
        obtain ⟨p, hp, hpk⟩ := List.any_eq_true.mp hany
        exact (of_decide_eq_true hpk) ▸ List.mem_map_of_mem Prod.fst hp
      · exact hmem
  · simp [List.mem_append, or_comm]

theorem lookupKey_eq_none_iff {k : String} {d : List (String × String)} :
    lookupKey k d = none ↔ k ∉ d.map Prod.fst := by
  induction d with
  | nil => simp [lookupKey]
  | cons p rest ih =>
    obtain ⟨k', v⟩ := p
    by_cases hk : k' = k
    · simp [lookupKey, hk]
    · simp [lookupKey, hk, ih, Ne.symm hk]

theorem lookupKey_append (k : String) (d1 d2 : List (String × String)) :
    lookupKey k (d1 ++ d2) =
      (match lookupKey k d1 with
       | some v => some v
       | none => lookupKey k d2) := by
  induction d1 with
  | nil => simp [lookupKey]
  | cons p rest ih =>
    obtain ⟨k', v⟩ := p
    by_cases hk : k' = k
    · simp [lookupKey, hk]
    · simp [lookupKey, hk, ih]

theorem lookupKey_mapReplace {k k' : String} (v : String) (d : List (String × String))
    (h : k' ≠ k) :
    lookupKey k (d.map (fun p => if p.1 = k' then (k', v) else p)) = lookupKey k d := by
  induction d with
  | nil => simp [lookupKey]
  | cons p rest ih =>
    obtain ⟨a, b⟩ := p
    by_cases hak : a = k'
    · simp only [List.map_cons, hak, if_pos rfl]
      rw [lookupKey, lookupKey, if_neg h, if_neg (hak ▸ h), ih]
    · simp only [List.map_cons, if_neg hak]
      by_cases hk : a = k
      · simp [lookupKey, hk]
      · rw [lookupKey, lookupKey, if_neg hk, if_neg hk, ih]

theorem lookupKey_dictInsert_ne {k k' : String} (v : String) (d : List (String × String))
    (h : k' ≠ k) : lookupKey k (dictInsert k' v d) = lookupKey k d := by
  unfold dictInsert
  split
  · exact lookupKey_mapReplace v d h
  · rw [lookupKey_append]
    cases hl : lookupKey k d with
    | some w => rfl
    | none => simp [lookupKey, h]

theorem lookupKey_dictInsert_self {k : String} (v : String) (d : List (String × String))
    (h : lookupKey k d = none) : lookupKey k (dictInsert k v d) = some v := by
  have hmem : k ∉ d.map Prod.fst := lookupKey_eq_none_iff.mp h
  have hany : d.any (fun p => p.1 = k) = false := by
    rw [List.any_eq_false]
    intro p hp
    simp only [decide_eq_true_eq]
    intro hpk
    exact hmem (hpk ▸ List.mem_map_of_mem Prod.fst hp)
  unfold dictInsert
  rw [if_neg (by simp [hany]), lookupKey_append, h]
  simp [lookupKey]

theorem dictInsert_of_not_mem {k : String} (v : String) {d : List (String × String)}
    (h : k ∉ d.map Prod.fst) : dictInsert k v d = d ++ [(k, v)] := by
  unfold dictInsert
  rw [if_neg]
  intro hany
  obtain ⟨p, hp, hpk⟩ := List.any_eq_true.mp hany
  exact h (of_decide_eq_true hpk ▸ List.mem_map_of_mem Prod.fst hp)

theorem mem_dictInsert {p : String × String} {k v : String} {d : List (String × String)}
    (h : p ∈ dictInsert k v d) : p = (k, v) ∨ p ∈ d := by
  unfold dictInsert at h
  split at h
  · obtain ⟨q, hq, hqp⟩ := List.mem_map.mp h
    by_cases hqk : q.1 = k
    · rw [if_pos hqk] at hqp; exact Or.inl hqp.symm
    · rw [if_neg hqk] at hqp; exact Or.inr (hqp ▸ hq)
  · rcases List.mem_append.mp h with hmem | hmem
    · exact Or.inr hmem
    · exact Or.inl (List.mem_singleton.mp hmem)

/-!
Lemmas about the end-boundary search of `extract_sections`.
-/

theorem endStep_le (tes : List String) (s : Nat) (e : Nat) (q : String × Nat) :
    endStep tes s e q ≤ e := by
  unfold endStep
  cases findIdxFrom (fun t => hasSubstr q.1 t) tes (s + 1) with
  | none => exact le_refl e
  | some n =>
    simp only
    split
    · omega
    · exact le_refl e

theorem foldl_endStep_le (tes : List String) (s : Nat) :
    ∀ (l : List (String × Nat)) (e : Nat), l.foldl (endStep tes s) e ≤ e := by
  intro l
  induction l with
  | nil => intro e; exact le_refl e
  | cons q rest ih =>
    intro e
    calc (q :: rest).foldl (endStep tes s) e = rest.foldl (endStep tes s) (endStep tes s e q) := rfl
    _ ≤ endStep tes s e q := ih _
    _ ≤ e := endStep_le tes s e q

theorem endStep_mono (tes : List String) (s : Nat) (q : String × Nat) {e e' : Nat}
    (h : e ≤ e') : endStep tes s e q ≤ endStep tes s e' q := by
  unfold endStep
  cases findIdxFrom (fun t => hasSubstr q.1 t) tes (s + 1) with
  | none => exact h
  | some n =>
    simp only
    split <;> split <;> omega

theorem foldl_endStep_mono (tes : List String) (s : Nat) :
    ∀ (l : List (String × Nat)) {e e' : Nat}, e ≤ e' →
      l.foldl (endStep tes s) e ≤ l.foldl (endStep tes s) e' := by
  intro l
  induction l with
  | nil => intro e e' h; exact h
  | cons q rest ih => intro e e' h; exact ih (endStep_mono tes s q h)

theorem foldl_endStep_le_found (tes : List String) (s : Nat) {q2 : String × Nat} {n2 : Nat}
    (hfind : findIdxFrom (fun t => hasSubstr q2.1 t) tes (s + 1) = some n2) :
    ∀ (rest : List (String × Nat)) (e : Nat), q2 ∈ rest →
      rest.foldl (endStep tes s) e ≤ n2 := by
  intro rest
  induction rest with
  | nil => intro e h; exact absurd h (List.not_mem_nil q2)
  | cons q rest' ih =>
    intro e hmem
    rcases List.mem_cons.mp hmem with rfl | hmem'
    · have hstep : endStep tes s e q2 ≤ n2 := by
        unfold endStep
        rw [hfind]
        simp only
        split <;> omega
      calc (q2 :: rest').foldl (endStep tes s) e
          = rest'.foldl (endStep tes s) (endStep tes s e q2) := rfl
        _ ≤ endStep tes s e q2 := foldl_endStep_le tes s rest' _
        _ ≤ n2 := hstep
    · exact ih _ hmem'

theorem endOf_le_found (tes : List String) {rest : List (String × Nat)} {s : Nat}
    {q2 : String × Nat} {n2 : Nat} (hmem : q2 ∈ rest)
    (hfind : findIdxFrom (fun t => hasSubstr q2.1 t) tes (s + 1) = some n2) :
    endOf tes rest s ≤ n2 :=
  foldl_endStep_le_found tes s hfind rest tes.length hmem

theorem endOf_append_le (tes : List String) (l1 l2 : List (String × Nat)) (s : Nat) :
    endOf tes (l1 ++ l2) s ≤ endOf tes l2 s := by
  unfold endOf
  rw [List.foldl_append]
  exact foldl_endStep_mono tes s l2 (foldl_endStep_le tes s l1 tes.length)

/-!
Lemmas about `joinNL`.
-/

theorem length_joinNL_append (l1 l2 : List String) :
    (joinNL l1).length ≤ (joinNL (l1 ++ l2)).length := by
  induction l1 with
  | nil => exact Nat.zero_le _
  | cons s l1' ih =>
    cases l1' with
    | nil =>
      cases l2 with
      | nil => exact le_refl _
      | cons t l2' =>
        show s.length ≤ (s ++ "\n" ++ joinNL (t :: l2')).length
        have h1 : ("\n" : String).length = 1 := rfl
        simp only [String.length_append, h1]
        omega
    | cons u l1'' =>
      show (s ++ "\n" ++ joinNL (u :: l1'')).length ≤
        (s ++ "\n" ++ joinNL ((u :: l1'') ++ l2)).length
      simp only [String.length_append]
      have := ih
      simp only [List.cons_append] at this ⊢
      omega

theorem length_joinNL_take_mono (l : List String) {m m' : Nat} (h : m ≤ m') :
    (joinNL (l.take m)).length ≤ (joinNL (l.take m')).length := by
  have hsplit : l.take m' = l.take m ++ (l.drop m).take (m' - m) := by
    conv_lhs => rw [show m' = m + (m' - m) by omega]
    rw [List.take_add]
  rw [hsplit]
  exact length_joinNL_append _ _

/-!
Lemmas about `extractLoop`.
-/

theorem extractLoop_lookup_of_not_mem (tes : List String) :
    ∀ (hs : List (String × Nat)) (acc : List (String × String)) (k : String),
      k ∉ hs.map Prod.fst →
      lookupKey k (extractLoop tes hs acc) = lookupKey k acc := by
  intro hs
  induction hs with
  | nil => intro acc k _; rfl
  | cons q rest ih =>
    intro acc k hk
    have hqk : q.1 ≠ k := fun he => hk (by simp [he])
    have hk' : k ∉ rest.map Prod.fst := fun hm => hk (by simp [hm])
    show lookupKey k (extractLoop tes (q :: rest) acc) = lookupKey k acc
    rw [extractLoop]
    cases hstart : startOf tes q.1 with
    | none => exact ih acc k hk'
    | some s =>
      simp only
      split
      · rw [ih _ k hk', lookupKey_dictInsert_ne _ _ hqk]
      · exact ih acc k hk'

theorem extractLoop_lookup_split (tes : List String) :
    ∀ (pre post : List (String × Nat)) (q : String × Nat) (acc : List (String × String)),
      q.1 ∉ pre.map Prod.fst → q.1 ∉ post.map Prod.fst → lookupKey q.1 acc = none →
      lookupKey q.1 (extractLoop tes (pre ++ q :: post) acc) =
        (match startOf tes q.1 with
         | none => none
         | some s =>
           if 100 < (bodyOf tes post s).length then some (bodyOf tes post s) else none) := by
  intro pre
  induction pre with
  | nil =>
    intro post q acc _ h2 h3
    simp only [List.nil_append]
    rw [extractLoop]
    cases hstart : startOf tes q.1 with
    | none => rw [extractLoop_lookup_of_not_mem tes post acc q.1 h2, h3]
    | some s =>
      simp only
      split
      · rw [extractLoop_lookup_of_not_mem tes post _ q.1 h2,
          lookupKey_dictInsert_self _ _ h3]
      · rw [extractLoop_lookup_of_not_mem tes post acc q.1 h2, h3]
  | cons p pre' ih =>
    intro post q acc h1 h2 h3
    have hpq : p.1 ≠ q.1 := fun he => h1 (by simp [he.symm])
    have h1' : q.1 ∉ pre'.map Prod.fst := fun hm => h1 (by simp [hm])
    show lookupKey q.1 (extractLoop tes (p :: (pre' ++ q :: post)) acc) = _
    rw [extractLoop]
    cases hstart : startOf tes p.1 with
    | none => exact ih post q acc h1' h2 h3
    | some s =>
      simp only
      split
      · exact ih post q _ h1' h2
          (by rw [lookupKey_dictInsert_ne _ _ hpq, h3])
      · exact ih post q acc h1' h2 h3

theorem extractLoop_body_gt (tes : List String) :
    ∀ (hs : List (String × Nat)) (acc : List (String × String)),
      (∀ p ∈ acc, 100 < p.2.length) →
      ∀ p ∈ extractLoop tes hs acc, 100 < p.2.length := by
  intro hs
  induction hs with
  | nil => intro acc hacc p hp; exact hacc p hp
  | cons q rest ih =>
    intro acc hacc p hp
    rw [extractLoop] at hp
    cases hstart : startOf tes q.1 with
    | none =>
      rw [hstart] at hp
      exact ih acc hacc p hp
    | some s =>
      rw [hstart] at hp
      simp only at hp
      split at hp
      · next hlen =>
        refine ih _ ?_ p hp
        intro p' hp'
        rcases mem_dictInsert hp' with rfl | hp''
        · exact hlen
        · exact hacc p' hp''
      · exact ih acc hacc p hp

theorem extractLoop_append_sublist (tes : List String) :
    ∀ (hs : List (String × Nat)) (acc : List (String × String)),
      (hs.map Prod.fst).Nodup →
      (∀ k ∈ hs.map Prod.fst, k ∉ acc.map Prod.fst) →
      ∃ l, extractLoop tes hs acc = acc ++ l ∧
        (l.map Prod.fst).Sublist (hs.map Prod.fst) := by
  intro hs
  induction hs with
  | nil => intro acc _ _; exact ⟨[], by simp [extractLoop], by simp⟩
  | cons q rest ih =>
    intro acc hnd hdisj
    have hndr : (rest.map Prod.fst).Nodup := (List.nodup_cons.mp (by simpa using hnd)).2
    have hqrest : q.1 ∉ rest.map Prod.fst := (List.nodup_cons.mp (by simpa using hnd)).1
    rw [extractLoop]
    cases hstart : startOf tes q.1 with
    | none =>
      obtain ⟨l, hl, hsub⟩ := ih acc hndr (fun k hk => hdisj k (by simp [hk]))
      exact ⟨l, hl, hsub.trans (List.sublist_cons_self _ _)⟩
    | some s =>
      simp only
      split
      · have hqacc : q.1 ∉ acc.map Prod.fst := hdisj q.1 (by simp)
        rw [dictInsert_of_not_mem _ hqacc]
        have hdisj' : ∀ k ∈ rest.map Prod.fst,
            k ∉ (acc ++ [(q.1, bodyOf tes rest s)]).map Prod.fst := by
          intro k hk
          simp only [List.map_append, List.mem_append, List.map_cons, List.map_nil,
            List.mem_singleton, not_or]
          exact ⟨hdisj k (by simp [hk]), fun he => hqrest (he ▸ hk)⟩
        obtain ⟨l, hl, hsub⟩ := ih (acc ++ [(q.1, bodyOf tes rest s)]) hndr hdisj'
        refine ⟨(q.1, bodyOf tes rest s) :: l, ?_, ?_⟩
        · rw [hl, List.append_assoc]; rfl
        · simpa using hsub.cons₂ q.1
      · obtain ⟨l, hl, hsub⟩ := ih acc hndr (fun k hk => hdisj k (by simp [hk]))
        exact ⟨l, hl, hsub.trans (List.sublist_cons_self _ _)⟩

theorem extractLoop_nil_tes : ∀ (hs : List (String × Nat)) (acc : List (String × String)),
    extractLoop [] hs acc = acc := by
  intro hs
  induction hs with
  | nil => intro acc; rfl
  | cons q rest ih =>
    intro acc
    rw [extractLoop]
    have : startOf ([] : List String) q.1 = none := rfl
    rw [this]
    exact ih acc

/-!
Lemmas about `relevantSections` / `get_compensation_section`.
-/

theorem mem_keys_relevStep_of_mem {ht : String → Bool} {acc : List (String × String)}
    {p : String × String} {h : String} (hmem : h ∈ acc.map Prod.fst) :
    h ∈ (relevStep ht acc p).map Prod.fst := by
  unfold relevStep
  simp only
  split
  · rw [mem_keys_dictInsert]
    right
    split
    · split
      · exact mem_keys_dictInsert.mpr (Or.inr hmem)
      · exact hmem
    · exact hmem
  · split
    · split
      · exact mem_keys_dictInsert.mpr (Or.inr hmem)
      · exact hmem
    · exact hmem

theorem mem_keys_relevStep_elim {ht : String → Bool} {acc : List (String × String)}
    {p : String × String} {h : String} (hmem : h ∈ (relevStep ht acc p).map Prod.fst) :
    h = p.1 ∨ h ∈ acc.map Prod.fst := by
  unfold relevStep at hmem
  simp only at hmem
  split at hmem
  · rcases mem_keys_dictInsert.mp hmem with he | hmem'
    · exact Or.inl he
    · split at hmem'
      · split at hmem'
        · exact mem_keys_dictInsert.mp hmem'
        · exact Or.inr hmem'
      · exact Or.inr hmem'
  · split at hmem
    · split at hmem
      · exact mem_keys_dictInsert.mp hmem
      · exact Or.inr hmem
    · exact Or.inr hmem

theorem mem_keys_relevStep_self {ht : String → Bool} {acc : List (String × String)}
    {p : String × String} (hq : qualifies ht p = true) :
    p.1 ∈ (relevStep ht acc p).map Prod.fst := by
  unfold qualifies at hq
  have hq' : (hitKeywords compKeywords p.1 p.2 = true ∧ ht p.2 = true) ∨
      hitKeywords bioKeywords p.1 p.2 = true := by
    simpa [Bool.and_eq_true] using hq
  have hgoal : ∀ (d : List (String × String)), p.1 ∈ (dictInsert p.1 p.2 d).map Prod.fst :=
    fun _ => mem_keys_dictInsert.mpr (Or.inl rfl)
  unfold relevStep
  simp only
  rcases hq' with ⟨hcomp, hht⟩ | hbio
  · rw [if_pos hcomp, if_pos hht]
    split
    · exact hgoal _
    · exact hgoal _
  · rw [if_pos hbio]
    exact hgoal _

theorem relevStep_of_not_qualifies {ht : String → Bool} {acc : List (String × String)}
    {p : String × String} (hq : qualifies ht p = false) :
    relevStep ht acc p = acc := by
  unfold qualifies at hq
  obtain ⟨hca, hbio⟩ := Bool.or_eq_false_iff.mp hq
  unfold relevStep
  simp only
  rw [if_neg (by simp [hbio])]
  rcases Bool.and_eq_false_iff.mp hca with hc | hh
  · rw [if_neg (by simp [hc])]
  · by_cases hcomp : hitKeywords compKeywords p.1 p.2 = true
    · rw [if_pos hcomp, if_neg (by simp [hh])]
    · rw [if_neg hcomp]

theorem mem_keys_relevStep {ht : String → Bool} {acc : List (String × String)}
    {p : String × String} {h : String} :
    h ∈ (relevStep ht acc p).map Prod.fst ↔
      (qualifies ht p = true ∧ h = p.1) ∨ h ∈ acc.map Prod.fst := by
  constructor
  · intro hmem
    cases hq : qualifies ht p with
    | false =>
      rw [relevStep_of_not_qualifies hq] at hmem
      exact Or.inr hmem
    | true =>
      rcases mem_keys_relevStep_elim hmem with he | hmem'
      · exact Or.inl ⟨rfl, he⟩
      · exact Or.inr hmem'
  · rintro (⟨hq, rfl⟩ | hmem)
    · exact mem_keys_relevStep_self hq
    · exact mem_keys_relevStep_of_mem hmem

theorem mem_keys_relevFold {ht : String → Bool} :
    ∀ (sections : List (String × String)) (acc : List (String × String)) (h : String),
      h ∈ ((sections.foldl (relevStep ht) acc).map Prod.fst) ↔
        (∃ p ∈ sections, qualifies ht p = true ∧ h = p.1) ∨ h ∈ acc.map Prod.fst := by
  intro sections
  induction sections with
  | nil => intro acc h; simp
  | cons p rest ih =>
    intro acc h
    rw [List.foldl_cons, ih]
    rw [mem_keys_relevStep]
    simp only [List.mem_cons]
    constructor
    · rintro (⟨p', hp', hq, he⟩ | (⟨hq, he⟩ | hmem))
      · exact Or.inl ⟨p', Or.inr hp', hq, he⟩
      · exact Or.inl ⟨p, Or.inl rfl, hq, he⟩
      · exact Or.inr hmem
    · rintro (⟨p', (rfl | hp'), hq, he⟩ | hmem)
      · exact Or.inr (Or.inl ⟨hq, he⟩)
      · exact Or.inl ⟨p', hp', hq, he⟩
      · exact Or.inr (Or.inr hmem)

theorem mem_keys_relevantSections {ht : String → Bool} {sections : List (String × String)}
    {h : String} :
    h ∈ (relevantSections ht sections).map Prod.fst ↔
      ∃ p ∈ sections, qualifies ht p = true ∧ h = p.1 := by
  unfold relevantSections
  rw [mem_keys_relevFold]
  simp

theorem relevantSections_eq_nil_iff {ht : String → Bool} {sections : List (String × String)} :
    relevantSections ht sections = [] ↔ ∀ p ∈ sections, qualifies ht p = false := by
  constructor
  · intro hnil p hp
    cases hq : qualifies ht p with
    | false => rfl
    | true =>
      have : p.1 ∈ (relevantSections ht sections).map Prod.fst :=
        mem_keys_relevantSections.mpr ⟨p, hp, hq, rfl⟩
      rw [hnil] at this
      exact absurd this (List.not_mem_nil _)
  · intro hall
    rw [List.eq_nil_iff_forall_not_mem]
    intro x hx
    have : x.1 ∈ (relevantSections ht sections).map Prod.fst :=
      List.mem_map_of_mem Prod.fst hx
    obtain ⟨p, hp, hq, _⟩ := mem_keys_relevantSections.mp this
    rw [hall p hp] at hq
    exact Bool.false_ne_true hq

theorem get_compensation_section_eq_none_iff {ht : String → Bool}
    {sections : List (String × String)} :
    get_compensation_section ht sections = none ↔
      ∀ p ∈ sections, qualifies ht p = false := by
  show (if (relevantSections ht sections).isEmpty = true then none
    else some (relevantSections ht sections)) = none ↔ _
  split
  · next hempty =>
    simp only [true_iff]
    exact relevantSections_eq_nil_iff.mp (List.isEmpty_iff.mp hempty)
  · next hempty =>
    simp only [false_iff, Option.some_ne_none]
    intro hall
    exact hempty (List.isEmpty_iff.mpr (relevantSections_eq_nil_iff.mpr hall))

theorem get_compensation_section_eq_some {ht : String → Bool}
    {sections : List (String × String)} (h : relevantSections ht sections ≠ []) :
    get_compensation_section ht sections = some (relevantSections ht sections) := by
  show (if (relevantSections ht sections).isEmpty = true then none
    else some (relevantSections ht sections)) = _
  rw [if_neg (fun he => h (List.isEmpty_iff.mp he))]

theorem eq_of_mem_of_nodup_keys {l : List (String × String)} {a b : String}
    {p : String × String} :
    (l.map Prod.fst).Nodup → (a, b) ∈ l → p ∈ l → p.1 = a → p = (a, b) := by
  induction l with
  | nil => intro _ h; exact absurd h (List.not_mem_nil _)
  | cons q rest ih =>
    intro hnd hab hp hpa
    rw [List.map_cons] at hnd
    have hhead : q.1 ∉ rest.map Prod.fst := (List.nodup_cons.mp hnd).1
    have htail : (rest.map Prod.fst).Nodup := (List.nodup_cons.mp hnd).2
    rcases List.mem_cons.mp hab with hq | hab'
    · rcases List.mem_cons.mp hp with hpq | hp'
      · rw [hpq, ← hq]
      · exfalso
        have hm : p.1 ∈ rest.map Prod.fst := List.mem_map_of_mem Prod.fst hp'
        rw [hpa] at hm
        exact hhead (by rw [← hq]; exact hm)
    · rcases List.mem_cons.mp hp with hpq | hp'
      · exfalso
        have hm : (a, b).1 ∈ rest.map Prod.fst := List.mem_map_of_mem Prod.fst hab'
        exact hhead (by rw [← hpq, hpa]; exact hm)
      · exact ih htail hab' hp' hpa

/-!
Lemmas about `dedupLoop` / `identify_headings`.
-/

theorem dedupLoop_mem :
    ∀ (l : List (String × Nat)) (seen : List String) (t : String) (c : Nat),
      (t, c) ∈ dedupLoop l seen →
      t ∉ seen ∧ t ≠ "" ∧ t.length < 200 ∧
        ∃ p, l.find? (fun q => normWS q.1 == t) = some p ∧ p.2 = c := by
  intro l
  induction l with
  | nil => intro seen t c h; exact absurd h (List.not_mem_nil _)
  | cons q rest ih =>
    intro seen t c hmem
    obtain ⟨t0, c0⟩ := q
    rw [dedupLoop] at hmem
    by_cases hcond : (normWS t0 ≠ "" ∧ normWS t0 ∉ seen ∧ (normWS t0).length < 200)
    · rw [if_pos hcond] at hmem
      rcases List.mem_cons.mp hmem with heq | hmem'
      · obtain ⟨rfl, rfl⟩ := Prod.mk.injEq .. ▸ heq
        refine ⟨hcond.2.1, hcond.1, hcond.2.2, (t0, c), ?_, rfl⟩
        rw [List.find?_cons_of_pos]
        simp
      · obtain ⟨hseen, hne, hlen, p, hfind, hpc⟩ := ih (normWS t0 :: seen) t c hmem'
        have htn : normWS t0 ≠ t := fun he => hseen (he ▸ List.mem_cons_self _ _)
        refine ⟨fun hs => hseen (List.mem_cons_of_mem _ hs), hne, hlen, p, ?_, hpc⟩
        rw [List.find?_cons_of_neg, hfind]
        simp [htn]
    · rw [if_neg hcond] at hmem
      obtain ⟨hseen, hne, hlen, p, hfind, hpc⟩ := ih seen t c hmem
      have htn : normWS t0 ≠ t := by
        intro he
        exact hcond ⟨he ▸ hne, he ▸ hseen, he ▸ hlen⟩
      refine ⟨hseen, hne, hlen, p, ?_, hpc⟩
      rw [List.find?_cons_of_neg, hfind]
      simp [htn]

theorem dedupLoop_keys_nodup :
    ∀ (l : List (String × Nat)) (seen : List String),
      ((dedupLoop l seen).map Prod.fst).Nodup := by
  intro l
  induction l with
  | nil => intro seen; simp [dedupLoop]
  | cons q rest ih =>
    intro seen
    obtain ⟨t0, c0⟩ := q
    rw [dedupLoop]
    split
    · rw [List.map_cons]
      refine List.nodup_cons.mpr ⟨?_, ih _⟩
      intro hmem
      obtain ⟨⟨t, c⟩, hp, hfst⟩ := List.mem_map.mp hmem
      obtain ⟨hseen, _, _, _⟩ := dedupLoop_mem rest _ t c hp
      have ht0 : t = normWS t0 := hfst
      exact hseen (by rw [ht0]; exact List.mem_cons_self _ _)
    · exact ih seen

/-!
Lemmas for the empty-document scenario and the validity-gate counter.
-/

theorem rawCandidates_fst_empty {doc : Document}
    (h1 : ∀ t ∈ doc.tagTexts, pyStrip t = "")
    (h2 : ∀ t ∈ doc.classTexts, pyStrip t = "")
    (h3 : ∀ t ∈ doc.styleTexts, pyStrip t = "")
    (h4 : ∀ t ∈ doc.textNodes, pyStrip t = "") :
    ∀ p ∈ rawCandidates doc, p.1 = "" := by
  intro p hp
  unfold rawCandidates at hp
  rcases List.mem_append.mp hp with hp' | htext
  · rcases List.mem_append.mp hp' with hp'' | hstyle
    · rcases List.mem_append.mp hp'' with htag | hclass
      · obtain ⟨t, ht, heq⟩ := List.mem_map.mp htag
        rw [← heq]
        exact h1 t ht
      · obtain ⟨t, ht, heq⟩ := List.mem_map.mp hclass
        rw [← heq]
        exact h2 t ht
    · obtain ⟨t, ht, heq⟩ := List.mem_filterMap.mp hstyle
      simp only [sigStyle, h3 t ht] at heq
      split at heq
      · rw [← Option.some.inj heq]
      · exact absurd heq Option.noConfusion
  · obtain ⟨t, ht, heq⟩ := List.mem_filterMap.mp htext
    exfalso
    simp [sigText, h4 t ht] at heq

theorem dedupLoop_of_all_empty :
    ∀ (l : List (String × Nat)), (∀ p ∈ l, normWS p.1 = "") →
      ∀ seen, dedupLoop l seen = [] := by
  intro l
  induction l with
  | nil => intro _ seen; rfl
  | cons q rest ih =>
    intro hall seen
    obtain ⟨t0, c0⟩ := q
    rw [dedupLoop]
    rw [if_neg]
    · exact ih (fun p hp => hall p (List.mem_cons_of_mem _ hp)) seen
    · intro hcond
      exact hcond.1 (hall (t0, c0) (List.mem_cons_self _ _))

theorem normWS_empty : normWS "" = "" := rfl

theorem identify_headings_eq_nil {doc : Document}
    (h1 : ∀ t ∈ doc.tagTexts, pyStrip t = "")
    (h2 : ∀ t ∈ doc.classTexts, pyStrip t = "")
    (h3 : ∀ t ∈ doc.styleTexts, pyStrip t = "")
    (h4 : ∀ t ∈ doc.textNodes, pyStrip t = "") :
    identify_headings doc = [] := by
  unfold identify_headings
  apply dedupLoop_of_all_empty
  intro p hp
  rw [rawCandidates_fst_empty h1 h2 h3 h4 p hp]
  exact normWS_empty

theorem textElements_eq_nil {doc : Document}
    (h4 : ∀ t ∈ doc.textNodes, pyStrip t = "") :
    textElements doc = [] := by
  unfold textElements
  rw [List.filter_eq_nil]
  intro s hs
  obtain ⟨t, ht, heq⟩ := List.mem_map.mp hs
  simp [← heq, h4 t ht]

theorem foldl_count {α : Type} (p : α → Bool) :
    ∀ (l : List α) (n : Nat),
      l.foldl (fun n x => if p x then n + 1 else n) n = n + l.countP p := by
  intro l
  induction l with
  | nil => intro n; simp
  | cons a l ih =>
    intro n
    rw [List.foldl_cons, ih, List.countP_cons]
    cases hpa : p a <;> simp [hpa] <;> omega


/-!
Claim theorems.
-/

/-- C4: `validate_filing_content` returns true iff at least two of the four
required-term patterns match the lower-cased document text and the
proxy-statement pattern specifically matches; a text containing exactly
"proxy statement" and "executive compensation" is valid, while a text
containing "board of directors" and "stock ownership" but no "proxy statement"
is invalid. -/
theorem c4_validity_gate :
    (∀ (gt : String → String) (content : String), content ≠ "" →
      (validate_filing_content gt content = true ↔
        2 ≤ requiredTerms.countP (fun p => altsMatch p (pyLower (gt content)).data) ∧
        altsMatch [["proxy", "statement"]] (pyLower (gt content)).data = true)) ∧
    validate_filing_content id "proxy statement executive compensation" = true ∧
    validate_filing_content id "board of directors stock ownership" = false := by
  refine ⟨?_, by decide, by decide⟩
  intro gt content hne
  unfold validate_filing_content
  rw [if_neg hne]
  simp only
  constructor
  · intro h
    obtain ⟨h1, h2⟩ := Bool.and_eq_true_iff.mp h
    have h1' := of_decide_eq_true h1
    rw [foldl_count] at h1'
    exact ⟨by omega, h2⟩
  · rintro ⟨h1, h2⟩
    rw [Bool.and_eq_true]
    refine ⟨decide_eq_true ?_, h2⟩
    rw [foldl_count]
    omega

/-- C4 witness: the general equivalence instantiated at a concrete
nonempty document. -/
theorem c4_validity_gate_witness :
    validate_filing_content id "proxy statement executive compensation" = true ↔
      2 ≤ requiredTerms.countP
          (fun p => altsMatch p (pyLower (id "proxy statement executive compensation")).data) ∧
      altsMatch [["proxy", "statement"]]
          (pyLower (id "proxy statement executive compensation")).data = true :=
  c4_validity_gate.1 id "proxy statement executive compensation" (by decide)

/-- C10: `validate_filing_content` returns false for empty (falsy) content
immediately, independently of the text-extraction function, so no term-pattern
matching is performed on the empty document. -/
theorem c10_empty_content_invalid :
    ∀ gt : String → String, validate_filing_content gt "" = false := by
  intro gt
  rfl

/-- C7: every heading candidate surviving deduplication has normalized title
length strictly below 200, and every section produced by `extract_sections`
has body length strictly above 100. -/
theorem c7_length_invariants :
    (∀ (doc : Document), ∀ p ∈ identify_headings doc, p.1.length < 200) ∧
    (∀ (doc : Document) (hs : List (String × Nat)),
      ∀ p ∈ extract_sections doc hs, 100 < p.2.length) := by
  constructor
  · intro doc p hp
    obtain ⟨t, c⟩ := p
    obtain ⟨_, _, hlen, _⟩ := dedupLoop_mem _ _ t c hp
    exact hlen
  · intro doc hs p hp
    exact extractLoop_body_gt _ _ []
      (fun p hp' => absurd hp' (List.not_mem_nil _)) p hp

/-- C7 witness: both invariants at a concrete document whose detector output
and section output are nonempty. -/
theorem c7_length_invariants_witness :
    ("AHEADING" : String).length < 200 ∧ 100 < c7filler.length :=
  ⟨c7_length_invariants.1 c7doc ("AHEADING", 9) (by decide),
   c7_length_invariants.2 c7doc (identify_headings c7doc) ("AHEADING", c7filler) (by decide)⟩

/-- C8: a document with no non-empty text nodes (hence all element texts strip
to empty, since element text concatenates descendant text nodes) yields zero
candidates, an empty section mapping for any candidate list, and the sentinel
`none` from `get_compensation_section`; in general `get_compensation_section`
returns `none` exactly when no section qualifies as relevant. -/
theorem c8_empty_document :
    (∀ (doc : Document) (ht : String → Bool),
      (∀ t ∈ doc.tagTexts, pyStrip t = "") →
      (∀ t ∈ doc.classTexts, pyStrip t = "") →
      (∀ t ∈ doc.styleTexts, pyStrip t = "") →
      (∀ t ∈ doc.textNodes, pyStrip t = "") →
      identify_headings doc = [] ∧
      (∀ hs, extract_sections doc hs = []) ∧
      get_compensation_section ht (extract_sections doc (identify_headings doc)) = none) ∧
    (∀ (ht : String → Bool) (sections : List (String × String)),
      get_compensation_section ht sections = none ↔
        ∀ p ∈ sections, qualifies ht p = false) := by
  constructor
  · intro doc ht h1 h2 h3 h4
    have hext : ∀ hs, extract_sections doc hs = [] := by
      intro hs
      unfold extract_sections
      rw [textElements_eq_nil h4]
      exact extractLoop_nil_tes _ _
    refine ⟨identify_headings_eq_nil h1 h2 h3 h4, hext, ?_⟩
    rw [hext]
    exact get_compensation_section_eq_none_iff.mpr
      (fun p hp => absurd hp (List.not_mem_nil _))
  · intro ht sections
    exact get_compensation_section_eq_none_iff

/-- C8 witness: the empty-document pipeline run end to end on a document whose
only text node is whitespace. -/
theorem c8_empty_document_witness :
    identify_headings c8doc = [] ∧ extract_sections c8doc [] = [] ∧
    get_compensation_section (fun _ => false)
      (extract_sections c8doc (identify_headings c8doc)) = none := by
  obtain ⟨ha, hb, hc⟩ := c8_empty_document.1 c8doc (fun _ => false)
    (by decide) (by decide) (by decide) (by decide)
  exact ⟨ha, hb [], hc⟩

/-- C3: a section hit only by compensation keywords is in the relevant set iff
its body has a table: with no table (and no biography hit) it is excluded; with
a table it is included; a biography-keyword hit is included with no table
requirement. -/
theorem c3_table_constraint :
    ∀ (ht : String → Bool) (sections : List (String × String)) (h c : String),
      (sections.map Prod.fst).Nodup → (h, c) ∈ sections →
      ((hitKeywords compKeywords h c = true → hitKeywords bioKeywords h c = false →
          ht c = false → h ∉ (relevantSections ht sections).map Prod.fst) ∧
       (hitKeywords compKeywords h c = true → ht c = true →
          get_compensation_section ht sections = some (relevantSections ht sections) ∧
          h ∈ (relevantSections ht sections).map Prod.fst) ∧
       (hitKeywords bioKeywords h c = true →
          get_compensation_section ht sections = some (relevantSections ht sections) ∧
          h ∈ (relevantSections ht sections).map Prod.fst)) := by
  intro ht sections h c hnd hmem
  have hmemkeys : ∀ (_ : qualifies ht (h, c) = true),
      h ∈ (relevantSections ht sections).map Prod.fst :=
    fun hq => mem_keys_relevantSections.mpr ⟨(h, c), hmem, hq, rfl⟩
  have hsome : ∀ (_ : qualifies ht (h, c) = true),
      get_compensation_section ht sections = some (relevantSections ht sections) := by
    intro hq
    apply get_compensation_section_eq_some
    intro hnil
    have hk := hmemkeys hq
    rw [hnil] at hk
    exact absurd hk (List.not_mem_nil _)
  refine ⟨?_, ?_, ?_⟩
  · intro hcomp hbio hht hmem'
    obtain ⟨p, hp, hq, he⟩ := mem_keys_relevantSections.mp hmem'
    have hpe : p = (h, c) := eq_of_mem_of_nodup_keys hnd hmem hp he.symm
    rw [hpe] at hq
    unfold qualifies at hq
    simp only at hq
    rw [hcomp, hbio, hht] at hq
    simp at hq
  · intro hcomp hht
    have hq : qualifies ht (h, c) = true := by
      unfold qualifies
      simp only
      rw [hcomp, hht]
      rfl
    exact ⟨hsome hq, hmemkeys hq⟩
  · intro hbio
    have hq : qualifies ht (h, c) = true := by
      unfold qualifies
      simp only
      rw [hbio]
      simp
    exact ⟨hsome hq, hmemkeys hq⟩

/-- C3 witness: a section titled "Executive Compensation" with no table in its
body is excluded, and an identically titled section whose body contains a
`<table>` element is included. -/
theorem c3_table_constraint_witness :
    "Executive Compensation" ∉ (relevantSections containsTableTag c3sections1).map Prod.fst ∧
    get_compensation_section containsTableTag c3sections2 =
      some [("Executive Compensation", "<table>Name Salary</table>")] ∧
    "Executive Compensation" ∈ (relevantSections containsTableTag c3sections2).map Prod.fst := by
  have hx := (c3_table_constraint containsTableTag c3sections1
    "Executive Compensation" "plain prose with no numbers" (by decide) (by decide)).1
    (by decide) (by decide) (by decide)
  have hi := (c3_table_constraint containsTableTag c3sections2
    "Executive Compensation" "<table>Name Salary</table>" (by decide) (by decide)).2.1
    (by decide) (by decide)
  refine ⟨hx, ?_, hi.2⟩
  rw [hi.1]
  decide

/-- C9: the table requirement is applied per keyword category, not per
section — a section with no table whose title or body-prefix matches both a
compensation and a biography keyword is still included via the biography
category. -/
theorem c9_per_category_table :
    ∀ (ht : String → Bool) (sections : List (String × String)) (h c : String),
      (h, c) ∈ sections →
      hitKeywords bioKeywords h c = true →
      hitKeywords compKeywords h c = true →
      ht c = false →
      get_compensation_section ht sections = some (relevantSections ht sections) ∧
      h ∈ (relevantSections ht sections).map Prod.fst := by
  intro ht sections h c hmem hbio _ _
  have hq : qualifies ht (h, c) = true := by
    unfold qualifies
    simp only
    rw [hbio]
    simp
  have hkeys : h ∈ (relevantSections ht sections).map Prod.fst :=
    mem_keys_relevantSections.mpr ⟨(h, c), hmem, hq, rfl⟩
  refine ⟨get_compensation_section_eq_some ?_, hkeys⟩
  intro hnil
  rw [hnil] at hkeys
  exact absurd hkeys (List.not_mem_nil _)

/-- C9 witness: a tableless section whose title matches both categories is
included. -/
theorem c9_per_category_table_witness :
    get_compensation_section (fun _ => false) c9sections =
      some (relevantSections (fun _ => false) c9sections) ∧
    "Executive Compensation and Board of Directors" ∈
      (relevantSections (fun _ => false) c9sections).map Prod.fst :=
  c9_per_category_table (fun _ => false) c9sections
    "Executive Compensation and Board of Directors" "prose only"
    (by decide) (by decide) (by decide) (by decide)


set_option maxRecDepth 4000 in
/-- C1 counterexample: with H1 before H2 in text-node order but H2 carrying
higher confidence (so H2 precedes H1 in the sorted processing order), H1's
section body contains H2's own heading node and the text after it — the end
boundary does not consult headings earlier in the confidence-sorted order. -/
theorem c1_counterexample :
    startOf (textElements c1doc) "H1SECTION" = some 0 ∧
    startOf (textElements c1doc) "H2SECTION" = some 2 ∧
    lookupKey "H1SECTION" (extract_sections c1doc c1hs) =
      some (c1fillerA ++ "\n" ++ "H2SECTION" ++ "\n" ++ c1fillerB) ∧
    hasSubstr "H2SECTION" (c1fillerA ++ "\n" ++ "H2SECTION" ++ "\n" ++ c1fillerB) = true := by
  decide

/-- C1 (amended): the end boundary of a heading's section is computed only
from headings strictly later in the confidence-sorted order: it is at most the
first post-start match index of every such later heading, and the body is
exactly the join of the text elements strictly between the start and that end.
Consequently H1's section excludes H2's occurrence whenever H2 comes after H1
in the confidence-sorted order. -/
theorem c1_boundary :
    ∀ (doc : Document) (hs pre post : List (String × Nat)) (q : String × Nat) (s : Nat)
      (q2 : String × Nat) (n2 : Nat),
      sortHeads hs = pre ++ q :: post →
      q.1 ∉ pre.map Prod.fst → q.1 ∉ post.map Prod.fst →
      startOf (textElements doc) q.1 = some s →
      q2 ∈ post →
      findIdxFrom (fun t => hasSubstr q2.1 t) (textElements doc) (s + 1) = some n2 →
      endOf (textElements doc) post s ≤ n2 ∧
      ∀ body, lookupKey q.1 (extract_sections doc hs) = some body →
        body = joinNL (((textElements doc).drop (s + 1)).take
          (endOf (textElements doc) post s - (s + 1))) := by
  intro doc hs pre post q s q2 n2 hsort h1 h2 hstart hq2 hfind
  refine ⟨endOf_le_found _ hq2 hfind, ?_⟩
  intro body hbody
  unfold extract_sections at hbody
  rw [hsort] at hbody
  rw [extractLoop_lookup_split _ pre post q [] h1 h2 rfl] at hbody
  rw [hstart] at hbody
  simp only at hbody
  split at hbody
  · exact (Option.some.inj hbody).symm
  · exact absurd hbody Option.noConfusion

set_option maxRecDepth 4000 in
/-- C1 witness: the amended boundary property at a concrete document where H2
comes after H1 in the sorted order and bounds its section. -/
theorem c1_boundary_witness :
    endOf (textElements c1wdoc) [("H2SECTION", 5)] 0 ≤ 2 ∧
    c1wfillerA = joinNL (((textElements c1wdoc).drop 1).take
      (endOf (textElements c1wdoc) [("H2SECTION", 5)] 0 - 1)) := by
  have h := c1_boundary c1wdoc c1whs [] [("H2SECTION", 5)] ("H1SECTION", 9) 0
    ("H2SECTION", 5) 2 (by decide) (by decide) (by decide) (by decide) (by decide) (by decide)
  exact ⟨h.1, h.2 c1wfillerA (by decide)⟩

/-- C2 counterexample: within the text-pattern signal a 0.5-confidence
candidate ("AB CD:", short, colon-terminated) precedes a 0.6-confidence
candidate ("AB       CD:", all-caps and longer than 10) with the same
whitespace-normalized text, so the deduplicated output keeps confidence
5 (0.5), not the maximum 6 (0.6) observed for that text. -/
theorem c2_counterexample :
    identify_headings c2doc = [("AB CD:", 5)] ∧
    ("AB       CD:", 6) ∈ rawCandidates c2doc ∧
    normWS "AB       CD:" = "AB CD:" ∧
    (5 : Nat) ≠ 6 := by
  decide

/-- C2 (amended): the deduplication step of `identify_headings` outputs each
whitespace-normalized text at most once, paired with the confidence of the
first raw candidate (in the tag, class, style, text-pattern evaluation order)
whose normalization equals that text; a text already inserted is never
overwritten by a later duplicate. -/
theorem c2_dedup_first_seen :
    (∀ doc : Document, ((identify_headings doc).map Prod.fst).Nodup) ∧
    (∀ (doc : Document) (t : String) (c : Nat), (t, c) ∈ identify_headings doc →
      ∃ p, (rawCandidates doc).find? (fun q => normWS q.1 == t) = some p ∧ p.2 = c) := by
  constructor
  · intro doc
    exact dedupLoop_keys_nodup _ _
  · intro doc t c hmem
    obtain ⟨_, _, _, p, hfind, hpc⟩ := dedupLoop_mem _ _ t c hmem
    exact ⟨p, hfind, hpc⟩

/-- C2 witness: the first-seen property at a concrete document with one
tag-signal heading. -/
theorem c2_dedup_first_seen_witness :
    ((identify_headings c2wdoc).map Prod.fst).Nodup ∧
    ((rawCandidates c2wdoc).find?
        (fun q => normWS q.1 == "Compensation Discussion")).map Prod.snd = some 9 := by
  refine ⟨c2_dedup_first_seen.1 c2wdoc, ?_⟩
  obtain ⟨p, hf, hc⟩ := c2_dedup_first_seen.2 c2wdoc "Compensation Discussion" 9 (by decide)
  rw [hf, Option.map_some', hc]

set_option maxRecDepth 4000 in
/-- C5 counterexample: the detector emits ("ALPHAHEAD:", 0.5) before
("BETAHEADINGX", 0.6) — detection order — but the section mapping enumerates
BETAHEADINGX first: output order is descending-confidence processing order,
not detection order. -/
theorem c5_counterexample :
    identify_headings c5doc = [("ALPHAHEAD:", 5), ("BETAHEADINGX", 6)] ∧
    (extract_sections c5doc (identify_headings c5doc)).map Prod.fst =
      ["BETAHEADINGX", "ALPHAHEAD:"] := by
  decide

/-- C5 (amended): the section mapping enumerates its entries in the
confidence-sorted processing order — the output key sequence is a subsequence
of the stably descending-confidence-sorted heading list, whose confidences are
sorted in non-increasing order — not in detection order. -/
theorem c5_output_order :
    ∀ (doc : Document) (hs : List (String × Nat)), (hs.map Prod.fst).Nodup →
      ((extract_sections doc hs).map Prod.fst).Sublist ((sortHeads hs).map Prod.fst) ∧
      ((sortHeads hs).map Prod.snd).Sorted (fun a b : Nat => b ≤ a) := by
  intro doc hs hnd
  have hperm : List.Perm ((sortHeads hs).map Prod.fst) (hs.map Prod.fst) :=
    (List.perm_insertionSort confGE hs).map Prod.fst
  have hnds : ((sortHeads hs).map Prod.fst).Nodup := hperm.nodup_iff.mpr hnd
  constructor
  · unfold extract_sections
    obtain ⟨l, hl, hsub⟩ := extractLoop_append_sublist (textElements doc) (sortHeads hs) []
      hnds (fun k _ hk => absurd hk (List.not_mem_nil _))
    rw [hl]
    simpa using hsub
  · have hsorted : List.Sorted confGE (sortHeads hs) := List.sorted_insertionSort confGE hs
    exact List.pairwise_map.mpr hsorted

set_option maxRecDepth 4000 in
/-- C5 witness: the amended ordering property at the concrete document whose
detector output the segmenter reorders. -/
theorem c5_output_order_witness :
    ((extract_sections c5doc (identify_headings c5doc)).map Prod.fst).Sublist
      ((sortHeads (identify_headings c5doc)).map Prod.fst) ∧
    ((sortHeads (identify_headings c5doc)).map Prod.snd).Sorted (fun a b : Nat => b ≤ a) :=
  c5_output_order c5doc (identify_headings c5doc) (by decide)

set_option maxRecDepth 4000 in
/-- C6 counterexample: "EXECUTIVE COMPENSATION" and "COMPENSATION" (one a
substring of the other) both first-match at index 0, yet both headings yield
sections — with identical bodies — contradicting "at most one of the two
headings yields a section". -/
theorem c6_counterexample :
    hasSubstr "COMPENSATION" "EXECUTIVE COMPENSATION" = true ∧
    startOf (textElements c6doc) "EXECUTIVE COMPENSATION" = some 0 ∧
    startOf (textElements c6doc) "COMPENSATION" = some 0 ∧
    extract_sections c6doc c6hs =
      [("EXECUTIVE COMPENSATION", c6filler), ("COMPENSATION", c6filler)] := by
  decide

/-- C6 (amended): when two headings first-match at the same start index, the
one processed later in the confidence-sorted order receives a body span that
contains the earlier one's span (same start, end no earlier), so whenever the
earlier heading yields a section the later one does too — it is not filtered
by the length threshold. -/
theorem c6_same_start :
    ∀ (doc : Document) (hs pre mid post : List (String × Nat)) (q q2 : String × Nat) (s : Nat),
      sortHeads hs = pre ++ q :: (mid ++ q2 :: post) →
      q.1 ∉ pre.map Prod.fst → q.1 ∉ (mid ++ q2 :: post).map Prod.fst →
      q2.1 ∉ (pre ++ q :: mid).map Prod.fst → q2.1 ∉ post.map Prod.fst →
      startOf (textElements doc) q.1 = some s →
      startOf (textElements doc) q2.1 = some s →
      ∀ body, lookupKey q.1 (extract_sections doc hs) = some body →
        lookupKey q2.1 (extract_sections doc hs) =
          some (bodyOf (textElements doc) post s) ∧
        body.length ≤ (bodyOf (textElements doc) post s).length := by
  intro doc hs pre mid post q q2 s hsort hq1pre hq1rest hq2pre hq2post hs1 hs2 body hbody
  unfold extract_sections at hbody ⊢
  rw [hsort] at hbody ⊢
  rw [extractLoop_lookup_split _ pre (mid ++ q2 :: post) q [] hq1pre hq1rest rfl] at hbody
  rw [hs1] at hbody
  simp only at hbody
  split at hbody
  · next hlen =>
    have hbody' : bodyOf (textElements doc) (mid ++ q2 :: post) s = body :=
      Option.some.inj hbody
    have hle : (bodyOf (textElements doc) (mid ++ q2 :: post) s).length ≤
        (bodyOf (textElements doc) post s).length := by
      unfold bodyOf
      apply length_joinNL_take_mono
      have hsplit : mid ++ q2 :: post = (mid ++ [q2]) ++ post := by simp
      have hend := hsplit ▸ endOf_append_le (textElements doc) (mid ++ [q2]) post s
      omega
    have hlen2 : 100 < (bodyOf (textElements doc) post s).length := by
      have hA : (bodyOf (textElements doc) (mid ++ q2 :: post) s).length = body.length :=
        congrArg String.length hbody'
      omega
    constructor
    · have hassoc : pre ++ q :: (mid ++ q2 :: post) = (pre ++ q :: mid) ++ q2 :: post := by
        simp
      rw [hassoc]
      rw [extractLoop_lookup_split _ (pre ++ q :: mid) post q2 [] hq2pre hq2post rfl]
      rw [hs2]
      simp only
      rw [if_pos hlen2]
    · rw [← hbody']
      exact hle
  · exact absurd hbody Option.noConfusion

set_option maxRecDepth 4000 in
/-- C6 witness: the amended same-start property at the concrete document of
the counterexample: both headings are retained. -/
theorem c6_same_start_witness :
    lookupKey "COMPENSATION" (extract_sections c6doc c6hs) =
      some (bodyOf (textElements c6doc) [] 0) ∧
    c6filler.length ≤ (bodyOf (textElements c6doc) [] 0).length :=
  c6_same_start c6doc c6hs [] [] [] ("EXECUTIVE COMPENSATION", 9) ("COMPENSATION", 8) 0
    (by decide) (by decide) (by decide) (by decide) (by decide) (by decide) (by decide)
    c6filler (by decide)

end Edgar
